import Mathlib

/-!
Verification development for the RLWE sampling and zero-encryption core
(`native/src/seal/util/rlwe.cpp`).

The C++ source is shallowly embedded as executable Lean definitions:

* machine integers are modelled as `Nat`, with `% 2^64` applied exactly where
  the 64-bit arithmetic can wrap;
* the external modular-arithmetic kernels (`barrett_reduce_64`,
  `dyadic_product_coeffmod`, `add_poly_coeffmod`, `negate_poly_coeffmod`) are
  out-of-scope collaborators and are modelled by their contracts
  (reduction / pointwise arithmetic modulo the limb modulus);
* the external NTT transforms are modelled as an abstract pair of per-limb
  functions (an `NttModel`), with their algebraic contract (mutual inverses,
  linearity over the pointwise mod-`q` operations) assumed only where a
  theorem needs it;
* randomness sources are modelled as streams `Nat → Nat`: a byte stream for
  the bootstrap PRNG, a 32-bit-word stream for the seeded ciphertext PRNG
  (obtained from an abstract factory `blake : List Nat → Nat → Nat`);
* the rejection loop of the uniform sampler is a potentially unbounded loop;
  it is modelled with explicit fuel and an `Option` result (`none` is the
  model artifact for running out of fuel, the C++ loop simply keeps drawing);
* the C++ `double` configuration values are modelled as exact rationals;
* polynomials in RNS form are lists of per-limb coefficient lists; the flat
  limb-major buffer stored in a `Ciphertext` is their concatenation.
-/

namespace SealRlwe

/-- Size of the 64-bit value space (one past the largest `uint64_t`). -/
def U64 : Nat := 2 ^ 64

/-- The largest `uint64_t` value, `0xFFFFFFFFFFFFFFFF`. -/
def U64MAX : Nat := 2 ^ 64 - 1

/-- Number of 64-bit words in a `random_seed_type`
(`prng_seed_uint64_count` in the surrounding library): 8 words = 64 bytes. -/
def prng_seed_uint64_count : Nat := 8

/-- External kernel `barrett_reduce_64`, modelled by its contract:
full reduction of a 64-bit value modulo `q`. -/
def barrett_reduce_64 (x q : Nat) : Nat := x % q

/-- External kernel `dyadic_product_coeffmod`: coefficientwise product
modulo `q` of two coefficient vectors. -/
def dyadic_product_coeffmod (a b : List Nat) (q : Nat) : List Nat :=
  List.zipWith (fun x y => x * y % q) a b

/-- External kernel `add_poly_coeffmod`: coefficientwise sum modulo `q`. -/
def add_poly_coeffmod (a b : List Nat) (q : Nat) : List Nat :=
  List.zipWith (fun x y => (x + y) % q) a b

/-- External kernel `negate_poly_coeffmod`: coefficientwise negation modulo
`q` (`0 ↦ 0`, `x ↦ q - x` otherwise, as the branchless kernel computes). -/
def negate_poly_coeffmod (a : List Nat) (q : Nat) : List Nat :=
  a.map fun x => if x = 0 then 0 else q - x

/-- The slice of the encryption-parameter object read by this core:
the ordered RNS modulus list and the polynomial degree. -/
structure EncryptionParameters where
  coeff_modulus : List Nat
  poly_modulus_degree : Nat
deriving DecidableEq

/-- Abstract model of the external per-limb NTT tables: a forward and an
inverse negacyclic transform for each limb index. -/
structure NttModel where
  fwd : Nat → List Nat → List Nat
  inv : Nat → List Nat → List Nat

/-- Concatenation of per-limb coefficient lists into the flat limb-major
buffer actually stored in a ciphertext component. -/
def flatten_poly : List (List Nat) → List Nat
  | [] => []
  | l :: ls => l ++ flatten_poly ls

/-- Embedding of `sample_poly_ternary` (rlwe.cpp lines 21-37).
`draws` models the stream of values produced by
`uniform_int_distribution<uint64_t> dist(0, 2)`: position `k` consumes the
single draw `draws k`, shared by every limb.  The stored word is the
`uint64_t` value `rand + (flag & modulus) - 1` where `flag` is all-ones
exactly when the draw is `0`. -/
def sample_poly_ternary (draws : Nat → Nat) (moduli : List Nat) (coeff_count : Nat) :
    List (List Nat) :=
  moduli.map fun q =>
    (List.range coeff_count).map fun k =>
      let rand := draws k
      let flag := if rand = 0 then U64MAX else 0
      (rand + (flag &&& q) + (U64 - 1)) % U64

/-- The `hw` helper of `sample_poly_cbd` (rlwe.cpp lines 84-92), computed on
the byte value `x < 256`.  In the C++ the argument is a (possibly negative)
`int8_t` promoted to `int`; the two `& 0x55` masks discard every
sign-extension bit, so the computation only ever sees bits 0-7 of the byte
and the `Nat` version below is exact. -/
def hamming_weight_int8 (x : Nat) : Nat :=
  let t := (x &&& 0x55) + ((x >>> 1) &&& 0x55)
  (t &&& 0x3) + ((t >>> 2) &&& 0x3) + ((t >>> 4) &&& 0x3) + ((t >>> 6) &&& 0x3)

/-- The `cbd` lambda of `sample_poly_cbd` (rlwe.cpp lines 94-100): position
`k` draws the 6 bytes `bytes (6k) .. bytes (6k+5)`, masks the 3rd and 6th to
their low 5 bits and returns the signed difference of Hamming weights. -/
def cbd_sample (bytes : Nat → Nat) (k : Nat) : Int :=
  let x0 := bytes (6 * k) % 256
  let x1 := bytes (6 * k + 1) % 256
  let x2 := (bytes (6 * k + 2) % 256) &&& 0x1F
  let x3 := bytes (6 * k + 3) % 256
  let x4 := bytes (6 * k + 4) % 256
  let x5 := (bytes (6 * k + 5) % 256) &&& 0x1F
  (hamming_weight_int8 x0 + hamming_weight_int8 x1 + hamming_weight_int8 x2 : Int)
    - hamming_weight_int8 x3 - hamming_weight_int8 x4 - hamming_weight_int8 x5

/-- The `uint64_t` image of a signed 64-bit value (two's complement cast). -/
def uint64_of_int (z : Int) : Nat := (z % (U64 : Int)).toNat

/-- Branchless signed-to-modular store used by the noise samplers
(rlwe.cpp lines 104-107): `static_cast<uint64_t>(noise) + (flag & modulus)`
with `flag` all-ones exactly when `noise < 0`, in wrapping 64-bit
arithmetic. -/
def noise_store (noise : Int) (q : Nat) : Nat :=
  let flag : Nat := if noise < 0 then U64MAX else 0
  (uint64_of_int noise + (flag &&& q)) % U64

/-- Error kinds raised by this core (§7 of the specification). -/
inductive SealError where
  | unsupportedParameter
deriving DecidableEq

/-- The process-wide noise configuration (`global_variables`), modelled as
exact rationals standing for the C++ `double` values. -/
structure NoiseConfig where
  noise_standard_deviation : ℚ
  noise_max_deviation : ℚ
deriving DecidableEq

/-- External helper `are_close(x, 0.0)` from util/common.h, modelled on
exact rationals.  The C++ computes `fabs(x - 0) < eps * max(fabs(x), 1)`
with `eps = 2^-52`; writing `x = num/den` in lowest terms and clearing
denominators, this is exactly `2^52 * |num| < max |num| den`, which is the
kernel-computable form used here. -/
def are_close_to_zero (x : ℚ) : Bool :=
  decide (2 ^ 52 * x.num.natAbs < max x.num.natAbs x.den)

/-- The sole standard deviation supported by the centered binomial sampler:
the C++ literal `3.2`, i.e. `16/5`. -/
def sdev_supported : ℚ := mkRat 16 5

/-- Embedding of `sample_poly_cbd` (rlwe.cpp lines 65-109).  `bytes` is the
byte stream of the generator passed in; position `k` consumes bytes
`6k .. 6k+5`.  The zero-max-deviation shortcut is checked first; then a
standard deviation other than 3.2 raises (`logic_error` in the C++, the
`UnsupportedParameter` kind of §7). -/
def sample_poly_cbd (bytes : Nat → Nat) (moduli : List Nat) (coeff_count : Nat)
    (cfg : NoiseConfig) : Except SealError (List (List Nat)) :=
  if are_close_to_zero cfg.noise_max_deviation then
    .ok (moduli.map fun _ => List.replicate coeff_count 0)
  else if cfg.noise_standard_deviation ≠ sdev_supported then
    .error .unsupportedParameter
  else
    .ok (moduli.map fun q =>
      (List.range coeff_count).map fun k => noise_store (cbd_sample bytes k) q)

/-- The rejection bound of `sample_poly_uniform` (rlwe.cpp line 126):
`max_random - barrett_reduce_64(max_random, modulus) - 1` with
`max_random = 2^64 - 1`. -/
def max_multiple (q : Nat) : Nat := U64MAX - barrett_reduce_64 U64MAX q - 1

/-- The do-while rejection loop of `sample_poly_uniform` (rlwe.cpp lines
130-134) for one coefficient.  `engine` is the stream of 32-bit draws
(`RandomToStandardAdapter`), `ptr` the index of the next unconsumed draw; a
64-bit candidate concatenates the two next draws (first draw in the high
half, matching left-to-right evaluation of the source expression).  The C++
loop redraws while `rand >= max_multiple`; `fuel` bounds this otherwise
unbounded loop, `none` meaning the model ran out of fuel. -/
def draw_uniform_64 (engine : Nat → Nat) (q : Nat) : Nat → Nat → Option (Nat × Nat)
  | _, 0 => none
  | ptr, fuel + 1 =>
    let rand := ((engine ptr % 2 ^ 32) <<< 32) ||| (engine (ptr + 1) % 2 ^ 32)
    if max_multiple q ≤ rand then draw_uniform_64 engine q (ptr + 2) fuel
    else some (barrett_reduce_64 rand q, ptr + 2)

/-- Inner loop of `sample_poly_uniform` (rlwe.cpp lines 127-136): the
coefficients of one limb, drawn left to right, threading the draw pointer. -/
def sample_uniform_coeffs (engine : Nat → Nat) (q : Nat) :
    Nat → Nat → Nat → Option (List Nat × Nat)
  | 0, ptr, _ => some ([], ptr)
  | n + 1, ptr, fuel =>
    match draw_uniform_64 engine q ptr fuel with
    | none => none
    | some (v, ptr1) =>
      match sample_uniform_coeffs engine q n ptr1 fuel with
      | none => none
      | some (vs, ptr2) => some (v :: vs, ptr2)

/-- Embedding of `sample_poly_uniform` (rlwe.cpp lines 111-138): limbs are
filled in order, each limb drawing `coeff_count` coefficients with its own
`max_multiple` bound, all from the single 32-bit draw stream. -/
def sample_poly_uniform (engine : Nat → Nat) :
    List Nat → Nat → Nat → Nat → Option (List (List Nat) × Nat)
  | [], _, ptr, _ => some ([], ptr)
  | q :: rest, coeff_count, ptr, fuel =>
    match sample_uniform_coeffs engine q coeff_count ptr fuel with
    | none => none
    | some (c, ptr1) =>
      match sample_poly_uniform engine rest coeff_count ptr1 fuel with
      | none => none
      | some (cs, ptr2) => some (c :: cs, ptr2)

/-- The slice of the ciphertext container mutated by this core: the
component buffers (flat limb-major word lists), the NTT-form flag and the
scale.  `resize` (external) value-initializes fresh component buffers to
zero. -/
structure Ciphertext where
  data : List (List Nat)
  is_ntt_form : Bool
  scale : ℚ
deriving DecidableEq

/-- Result of a run of a zero-ciphertext generator: normal completion, or a
propagating error together with the state the destination was left in. -/
inductive EncOutcome where
  | ok (dest : Ciphertext)
  | err (e : SealError) (dest : Ciphertext)
deriving DecidableEq

/-- The destination state a run left behind, for either outcome. -/
def EncOutcome.dest : EncOutcome → Ciphertext
  | .ok d => d
  | .err _ d => d

/-- External `Ciphertext::resize`, modelled by its contract: the backing
flat word buffer keeps its existing contents (the array resize preserves
the prefix) and zero-fills any newly exposed space, and the resized buffer
is viewed as `encrypted_size` consecutive components of
`poly_uint64_count` words each. -/
def resize_ciphertext (destination : Ciphertext) (poly_uint64_count encrypted_size : Nat) :
    List (List Nat) :=
  let total := encrypted_size * poly_uint64_count
  let flat := (flatten_poly destination.data ++ List.replicate total 0).take total
  (List.range encrypted_size).map fun j => (flat.drop (j * poly_uint64_count)).take
    poly_uint64_count

/-- One 64-bit word of `public_rng_seed`, assembled little-endian from the
bytes the bootstrap generator wrote into the seed array
(rlwe.cpp lines 254-255). -/
def seed_word (bootstrap : Nat → Nat) (w : Nat) : Nat :=
  ((List.range 8).map fun j => (bootstrap (8 * w + j) % 256) * 256 ^ j).sum

/-- The freshly sampled public seed: `prng_seed_uint64_count` words drawn
from the first 64 bytes of the bootstrap stream. -/
def public_rng_seed (bootstrap : Nat → Nat) : List Nat :=
  (List.range prng_seed_uint64_count).map (seed_word bootstrap)

/-- Embedding of `encrypt_zero_symmetric` (rlwe.cpp lines 217-324).

Inputs: `secret_key` is the per-limb secret-key buffer (NTT form, as stored
by the surrounding library); `ntt_tables` the abstract external transforms;
`bootstrap` the byte stream of `parms.random_generator()->create()`;
`blake` the external seeded-PRNG factory, mapping a seed to the 32-bit draw
stream of `BlakePRNGFactory(seed).create()`; `fuel` the rejection-loop
bound (model artifact); `destination` the ciphertext passed by the caller.

Faithful points: the capacity guard silently clears `save_seed`; the
content-preserving `resize` and the flag assignments happen before any
sampling; `c1` is written before the noise is sampled, so a noise-sampler
error propagates with `c1` already populated and `c0` still holding
whatever the resize left in the first component (captured by `.err`
carrying the intermediate destination); the final seed overwrite replaces
the first `prng_seed_uint64_count + 1` words of the stored `c1` buffer. -/
def encrypt_zero_symmetric (secret_key : List (List Nat)) (parms : EncryptionParameters)
    (ntt_tables : NttModel) (cfg : NoiseConfig) (is_ntt_form save_seed : Bool)
    (bootstrap : Nat → Nat) (blake : List Nat → Nat → Nat) (fuel : Nat)
    (destination : Ciphertext) : Option EncOutcome :=
  let moduli := parms.coeff_modulus
  let coeff_modulus_size := moduli.length
  let coeff_count := parms.poly_modulus_degree
  let poly_uint64_count := coeff_count * coeff_modulus_size
  let save_seed :=
    if save_seed = true ∧ poly_uint64_count < prng_seed_uint64_count + 1 then false
    else save_seed
  let resized := resize_ciphertext destination poly_uint64_count 2
  let dest1 : Ciphertext := { data := resized, is_ntt_form := is_ntt_form, scale := 1 }
  let seed := public_rng_seed bootstrap
  let ciphertext_rng := blake seed
  match sample_poly_uniform ciphertext_rng moduli coeff_count 0 fuel with
  | none => none
  | some (a, _) =>
    let c1_mid : List (List Nat) :=
      if !is_ntt_form && save_seed then
        (List.range coeff_modulus_size).map fun i => ntt_tables.fwd i (a.getD i [])
      else a
    let dest_mid : Ciphertext :=
      { dest1 with data := [resized.getD 0 [], flatten_poly c1_mid] }
    match sample_poly_cbd (fun n => bootstrap (8 * prng_seed_uint64_count + n))
        moduli coeff_count cfg with
    | .error e => some (.err e dest_mid)
    | .ok noise =>
      let c0 : List (List Nat) :=
        (List.range coeff_modulus_size).map fun i =>
          let q := moduli.getD i 0
          let prod := dyadic_product_coeffmod (secret_key.getD i []) (c1_mid.getD i []) q
          if is_ntt_form then
            negate_poly_coeffmod
              (add_poly_coeffmod (ntt_tables.fwd i (noise.getD i [])) prod q) q
          else
            negate_poly_coeffmod
              (add_poly_coeffmod (noise.getD i []) (ntt_tables.inv i prod) q) q
      let c1_fin : List (List Nat) :=
        if !is_ntt_form && !save_seed then
          (List.range coeff_modulus_size).map fun i => ntt_tables.inv i (c1_mid.getD i [])
        else c1_mid
      let c1_stored : List Nat :=
        if save_seed then
          U64MAX :: seed ++ (flatten_poly c1_fin).drop (prng_seed_uint64_count + 1)
        else flatten_poly c1_fin
      some (.ok { dest1 with data := [flatten_poly c0, c1_stored] })

/-- Embedding of `encrypt_zero_asymmetric` (rlwe.cpp lines 140-215).

`public_key` is the list of key components, each a per-limb buffer (NTT
form).  In the C++ a single generator feeds both the ternary distribution
adapter for `u` and the raw byte draws of the noise sampler; the adapter's
consumption is library-defined, so the two views of that shared stream are
modelled as separate streams: `draws` (the values produced by
`uniform_int_distribution(0, 2)`) and `noise_bytes` (bytes, component `j`
consuming bytes from offset `j * 6 * coeff_count` on).  The in-place
forward NTT of `u` (performed once per limb and reused across components)
is modelled by applying the pure transform at each use, which is
functionally identical.  The content-preserving resize and the flag
assignments happen first; every component is then overwritten with its
`u·public_key[j]` product before any noise is sampled, so a noise-sampler
error propagates with all components holding the noiseless products. -/
def encrypt_zero_asymmetric (public_key : List (List (List Nat)))
    (parms : EncryptionParameters) (ntt_tables : NttModel) (cfg : NoiseConfig)
    (is_ntt_form : Bool) (draws : Nat → Nat) (noise_bytes : Nat → Nat)
    (destination : Ciphertext) : EncOutcome :=
  let moduli := parms.coeff_modulus
  let coeff_modulus_size := moduli.length
  let coeff_count := parms.poly_modulus_degree
  let poly_uint64_count := coeff_count * coeff_modulus_size
  let encrypted_size := public_key.length
  let resized := resize_ciphertext destination poly_uint64_count encrypted_size
  let dest1 : Ciphertext := { data := resized, is_ntt_form := is_ntt_form, scale := 1 }
  let u := sample_poly_ternary draws moduli coeff_count
  let prods : List (List (List Nat)) :=
    (List.range encrypted_size).map fun j =>
      (List.range coeff_modulus_size).map fun i =>
        let q := moduli.getD i 0
        let prod := dyadic_product_coeffmod (ntt_tables.fwd i (u.getD i []))
          ((public_key.getD j []).getD i []) q
        if is_ntt_form then prod else ntt_tables.inv i prod
  let dest_mid : Ciphertext := { dest1 with data := prods.map flatten_poly }
  match sample_poly_cbd noise_bytes moduli coeff_count cfg with
  | .error e => .err e dest_mid
  | .ok _ =>
    let final : List (List (List Nat)) :=
      (List.range encrypted_size).map fun j =>
        let noise_j :=
          match sample_poly_cbd (fun n => noise_bytes (j * (6 * coeff_count) + n))
              moduli coeff_count cfg with
          | .ok x => x
          | .error _ => [] -- unreachable: the same configuration succeeded above
        (List.range coeff_modulus_size).map fun i =>
          let q := moduli.getD i 0
          let e_i := if is_ntt_form then ntt_tables.fwd i (noise_j.getD i [])
            else noise_j.getD i []
          add_poly_coeffmod e_i ((prods.getD j []).getD i []) q
    .ok { dest1 with data := final.map flatten_poly }

/-- Population count of a byte: the number of set bits among bits 0-7. -/
def popcount_byte (b : Nat) : Nat :=
  ((List.range 8).map fun j => (b >>> j) &&& 1).sum

/-! ### Helper lemmas -/

theorem getD_range_map {α : Type} (f : Nat → α) (n i : Nat) (d : α) (h : i < n) :
    ((List.range n).map f).getD i d = f i := by
  rw [List.getD_eq_getElem _ _ (by simpa using h)]
  simp

theorem getD_map_lt {α β : Type} (f : α → β) (l : List α) (i : Nat) (d : β) (e : α)
    (h : i < l.length) : (l.map f).getD i d = f (l.getD i e) := by
  rw [List.getD_eq_getElem _ _ (by simpa using h), List.getD_eq_getElem _ _ h,
    List.getElem_map]

theorem land_U64MAX_of_lt (q : Nat) (h : q < U64) : U64MAX &&& q = q := by
  rw [Nat.land_comm]
  show q &&& (2 ^ 64 - 1) = q
  rw [Nat.and_pow_two_sub_one_eq_mod]
  exact Nat.mod_eq_of_lt h

theorem dyadic_product_coeffmod_comm (a b : List Nat) (q : Nat) :
    dyadic_product_coeffmod a b q = dyadic_product_coeffmod b a q :=
  List.zipWith_comm_of_comm _ (fun x y => by rw [Nat.mul_comm]) a b

set_option maxRecDepth 10000 in
theorem hamming_weight_eq_popcount : ∀ b, b < 256 → hamming_weight_int8 b = popcount_byte b := by
  decide

set_option maxRecDepth 10000 in
theorem hamming_weight_le_8 : ∀ b, b < 256 → hamming_weight_int8 b ≤ 8 := by
  decide

theorem hamming_weight_masked_le_5 (b : Nat) : hamming_weight_int8 (b &&& 0x1F) ≤ 5 := by
  have h : b &&& 0x1F < 32 := Nat.lt_succ_of_le (le_trans Nat.and_le_right (by norm_num))
  revert h
  generalize b &&& 0x1F = c
  revert c
  decide

theorem draw_uniform_64_some_lt (engine : Nat → Nat) (q : Nat) (hq : 0 < q) :
    ∀ fuel ptr v p, draw_uniform_64 engine q ptr fuel = some (v, p) → v < q := by
  intro fuel
  induction fuel with
  | zero => intro ptr v p h; simp [draw_uniform_64] at h
  | succ n ih =>
    intro ptr v p h
    simp only [draw_uniform_64] at h
    split at h
    · exact ih _ _ _ h
    · simp only [Option.some.injEq, Prod.mk.injEq] at h
      obtain ⟨hv, _⟩ := h
      exact hv ▸ Nat.mod_lt _ hq

theorem sample_uniform_coeffs_length (engine : Nat → Nat) (q : Nat) :
    ∀ n ptr fuel c p, sample_uniform_coeffs engine q n ptr fuel = some (c, p) →
      c.length = n := by
  intro n
  induction n with
  | zero =>
    intro ptr fuel c p h
    simp only [sample_uniform_coeffs, Option.some.injEq, Prod.mk.injEq] at h
    obtain ⟨hc, _⟩ := h
    subst hc
    rfl
  | succ n ih =>
    intro ptr fuel c p h
    simp only [sample_uniform_coeffs] at h
    split at h
    · exact absurd h (by simp)
    · rename_i v ptr1 hd
      split at h
      · exact absurd h (by simp)
      · rename_i cs ptr2 hs
        simp only [Option.some.injEq, Prod.mk.injEq] at h
        obtain ⟨hc, _⟩ := h
        subst hc
        simp [ih _ _ _ _ hs]

theorem sample_uniform_coeffs_lt (engine : Nat → Nat) (q : Nat) (hq : 0 < q) :
    ∀ n ptr fuel c p, sample_uniform_coeffs engine q n ptr fuel = some (c, p) →
      ∀ v ∈ c, v < q := by
  intro n
  induction n with
  | zero =>
    intro ptr fuel c p h
    simp only [sample_uniform_coeffs, Option.some.injEq, Prod.mk.injEq] at h
    obtain ⟨hc, _⟩ := h
    subst hc
    simp
  | succ n ih =>
    intro ptr fuel c p h
    simp only [sample_uniform_coeffs] at h
    split at h
    · exact absurd h (by simp)
    · rename_i v ptr1 hd
      split at h
      · exact absurd h (by simp)
      · rename_i cs ptr2 hs
        simp only [Option.some.injEq, Prod.mk.injEq] at h
        obtain ⟨hc, _⟩ := h
        subst hc
        intro w hw
        rcases List.mem_cons.mp hw with hw | hw
        · exact hw ▸ draw_uniform_64_some_lt engine q hq _ _ _ _ hd
        · exact ih _ _ _ _ hs w hw

theorem sample_poly_uniform_shape (engine : Nat → Nat) :
    ∀ (moduli : List Nat) count ptr fuel a p,
      sample_poly_uniform engine moduli count ptr fuel = some (a, p) →
      a.length = moduli.length ∧ ∀ l ∈ a, l.length = count := by
  intro moduli
  induction moduli with
  | nil =>
    intro count ptr fuel a p h
    simp only [sample_poly_uniform, Option.some.injEq, Prod.mk.injEq] at h
    obtain ⟨ha, _⟩ := h
    subst ha
    simp
  | cons q rest ih =>
    intro count ptr fuel a p h
    simp only [sample_poly_uniform] at h
    split at h
    · exact absurd h (by simp)
    · rename_i c ptr1 hc
      split at h
      · exact absurd h (by simp)
      · rename_i cs ptr2 hr
        simp only [Option.some.injEq, Prod.mk.injEq] at h
        obtain ⟨ha, _⟩ := h
        subst ha
        obtain ⟨hlen, hall⟩ := ih _ _ _ _ _ hr
        refine ⟨by simp [hlen], ?_⟩
        intro l hl
        rcases List.mem_cons.mp hl with hl | hl
        · exact hl ▸ sample_uniform_coeffs_length engine q _ _ _ _ _ hc
        · exact hall l hl

theorem sample_poly_uniform_lt (engine : Nat → Nat) :
    ∀ (moduli : List Nat), (∀ q ∈ moduli, 0 < q) →
    ∀ count ptr fuel a p,
      sample_poly_uniform engine moduli count ptr fuel = some (a, p) →
      ∀ i, ∀ v ∈ a.getD i [], v < moduli.getD i 0 := by
  intro moduli
  induction moduli with
  | nil =>
    intro _ count ptr fuel a p h i v hv
    simp only [sample_poly_uniform, Option.some.injEq, Prod.mk.injEq] at h
    obtain ⟨ha, _⟩ := h
    subst ha
    simp at hv
  | cons q rest ih =>
    intro hq count ptr fuel a p h i v hv
    simp only [sample_poly_uniform] at h
    split at h
    · exact absurd h (by simp)
    · rename_i c ptr1 hc
      split at h
      · exact absurd h (by simp)
      · rename_i cs ptr2 hr
        simp only [Option.some.injEq, Prod.mk.injEq] at h
        obtain ⟨ha, _⟩ := h
        subst ha
        cases i with
        | zero =>
          simp only [List.getD_cons_zero] at hv ⊢
          exact sample_uniform_coeffs_lt engine q (hq q (by simp)) _ _ _ _ _ hc v hv
        | succ i =>
          simp only [List.getD_cons_succ] at hv ⊢
          exact ih (fun x hx => hq x (by simp [hx])) _ _ _ _ _ hr i v hv

theorem flatten_poly_length (lss : List (List Nat)) (count : Nat)
    (h : ∀ l ∈ lss, l.length = count) :
    (flatten_poly lss).length = lss.length * count := by
  induction lss with
  | nil => simp [flatten_poly]
  | cons l ls ih =>
    have hl : l.length = count := h l (by simp)
    have hr := ih fun x hx => h x (by simp [hx])
    simp only [flatten_poly, List.length_append, List.length_cons, hl, hr]
    ring

theorem flatten_poly_getD (lss : List (List Nat)) (count : Nat)
    (h : ∀ l ∈ lss, l.length = count) :
    ∀ i k, i < lss.length → k < count →
      (flatten_poly lss).getD (i * count + k) 0 = (lss.getD i []).getD k 0 := by
  induction lss with
  | nil => intro i k hi _; simp at hi
  | cons l ls ih =>
    intro i k hi hk
    have hl : l.length = count := h l (by simp)
    cases i with
    | zero =>
      have hkl : k < l.length := hl ▸ hk
      simp only [flatten_poly, Nat.zero_mul, Nat.zero_add, List.getD_cons_zero]
      exact List.getD_append _ _ _ _ hkl
    | succ i =>
      have hi1 : i < ls.length := by simpa using hi
      have hrest := ih (fun x hx => h x (by simp [hx])) i k hi1 hk
      have hge : l.length ≤ (i + 1) * count + k := by
        rw [hl]
        calc count ≤ count + (i * count + k) := Nat.le_add_right _ _
          _ = (i + 1) * count + k := by ring
      simp only [flatten_poly, List.getD_cons_succ]
      rw [List.getD_append_right _ _ _ _ hge]
      have harith : (i + 1) * count + k - l.length = i * count + k := by
        rw [hl]
        have : (i + 1) * count + k = count + (i * count + k) := by ring
        omega
      rw [harith]
      exact hrest

/-! ### Claim C3: the ternary sampler -/

/-- C3: `sample_poly_ternary` consumes exactly one random draw per
coefficient position (the output only reads the first `coeff_count` draws,
and limb `i` at position `k` is a function of the single draw `draws k`);
the stored word is the `uint64_t` value `rand + (flag & modulus) - 1` with
`flag` all-ones exactly when the draw is zero, whose closed form is
`q - 1` for draw `0` and `draw - 1` otherwise; hence every limb stores the
same signed representative in `{-1, 0, 1}` reduced modulo its own modulus,
and each stored value lies in `{0, 1, q - 1}`. -/
theorem sample_poly_ternary_spec (draws : Nat → Nat) (moduli : List Nat)
    (coeff_count i k : Nat) (hi : i < moduli.length) (hk : k < coeff_count)
    (hq2 : 2 ≤ moduli.getD i 0) (hqU : moduli.getD i 0 < U64) (hr : draws k ≤ 2) :
    (((sample_poly_ternary draws moduli coeff_count).getD i []).getD k 0 =
      if draws k = 0 then moduli.getD i 0 - 1 else draws k - 1) ∧
    (((sample_poly_ternary draws moduli coeff_count).getD i []).getD k 0 = 0 ∨
      ((sample_poly_ternary draws moduli coeff_count).getD i []).getD k 0 = 1 ∨
      ((sample_poly_ternary draws moduli coeff_count).getD i []).getD k 0 =
        moduli.getD i 0 - 1) ∧
    Int.ModEq (moduli.getD i 0 : ℤ)
      (((sample_poly_ternary draws moduli coeff_count).getD i []).getD k 0 : ℤ)
      ((draws k : ℤ) - 1) ∧
    (∀ draws2 : Nat → Nat, (∀ j, j < coeff_count → draws2 j = draws j) →
      sample_poly_ternary draws2 moduli coeff_count =
        sample_poly_ternary draws moduli coeff_count) := by
  have hU64 : U64 = 2 ^ 64 := rfl
  have hval : ((sample_poly_ternary draws moduli coeff_count).getD i []).getD k 0 =
      if draws k = 0 then moduli.getD i 0 - 1 else draws k - 1 := by
    simp only [sample_poly_ternary]
    rw [getD_map_lt _ _ _ _ 0 hi, getD_range_map _ _ _ _ hk]
    rcases Nat.lt_or_ge (draws k) 1 with h0 | h1
    · have h0 : draws k = 0 := by omega
      rw [if_pos h0, if_pos h0, h0, land_U64MAX_of_lt _ hqU]
      have hsplit : 0 + moduli.getD i 0 + (U64 - 1) = U64 + (moduli.getD i 0 - 1) := by
        omega
      rw [hsplit, Nat.add_mod_left, Nat.mod_eq_of_lt (by omega)]
    · have h0 : ¬ draws k = 0 := by omega
      rw [if_neg h0, if_neg h0, Nat.zero_and]
      rcases (by omega : draws k = 1 ∨ draws k = 2) with h | h
      · rw [h]
        have hsplit : 1 + 0 + (U64 - 1) = U64 := by omega
        rw [hsplit, Nat.mod_self]
      · rw [h]
        have hsplit : 2 + 0 + (U64 - 1) = U64 + 1 := by omega
        rw [hsplit, Nat.add_mod_left, Nat.mod_eq_of_lt (by omega)]
  refine ⟨hval, ?_, ?_, ?_⟩
  · rw [hval]
    rcases (by omega : draws k = 0 ∨ draws k = 1 ∨ draws k = 2) with h | h | h <;>
      simp [h]
  · rw [hval]
    rcases (by omega : draws k = 0 ∨ draws k = 1 ∨ draws k = 2) with h | h | h
    · rw [if_pos h, h]
      refine Int.ModEq.symm (Int.modEq_iff_dvd.mpr ?_)
      have heq : ((moduli.getD i 0 - 1 : Nat) : ℤ) - (((0 : Nat) : ℤ) - 1) =
          (moduli.getD i 0 : ℤ) := by
        push_cast [Nat.cast_sub (by omega : 1 ≤ moduli.getD i 0)]
        ring
      rw [heq]
    · rw [if_neg (by omega), h]
      norm_num
    · rw [if_neg (by omega), h]
      norm_num
  · intro draws2 hagree
    simp only [sample_poly_ternary]
    refine List.map_congr_left fun q _ => ?_
    refine List.map_congr_left fun j hj => ?_
    rw [hagree j (List.mem_range.mp hj)]

/-- Witness for `sample_poly_ternary_spec` at a concrete instance:
one coefficient, single modulus 5, constant draw 0. -/
theorem sample_poly_ternary_spec_witness :
    (((sample_poly_ternary (fun _ => 0) [5] 1).getD 0 []).getD 0 0 =
      if (fun _ => 0 : Nat → Nat) 0 = 0 then ([5] : List Nat).getD 0 0 - 1
      else (fun _ => 0 : Nat → Nat) 0 - 1) ∧
    (((sample_poly_ternary (fun _ => 0) [5] 1).getD 0 []).getD 0 0 = 0 ∨
      ((sample_poly_ternary (fun _ => 0) [5] 1).getD 0 []).getD 0 0 = 1 ∨
      ((sample_poly_ternary (fun _ => 0) [5] 1).getD 0 []).getD 0 0 =
        ([5] : List Nat).getD 0 0 - 1) ∧
    Int.ModEq (([5] : List Nat).getD 0 0 : ℤ)
      (((sample_poly_ternary (fun _ => 0) [5] 1).getD 0 []).getD 0 0 : ℤ)
      (((fun _ => 0 : Nat → Nat) 0 : ℤ) - 1) ∧
    (∀ draws2 : Nat → Nat, (∀ j, j < 1 → draws2 j = (fun _ => 0 : Nat → Nat) j) →
      sample_poly_ternary draws2 [5] 1 =
        sample_poly_ternary (fun _ => 0) [5] 1) :=
  sample_poly_ternary_spec (fun _ => 0) [5] 1 0 0 (by decide) (by decide) (by decide)
    (by decide) (by decide)

/-! ### Claim C4: the uniform sampler's rejection bound -/

/-- C4: the code computes `max_multiple 3 = 2^64 - 2` (matching the claimed
formula), but its do-while loop rejects a 64-bit draw that is exactly equal
to `max_multiple`: with a draw stream whose first two 32-bit words
concatenate to `max_multiple 3`, the loop discards that draw and returns
the value of the second attempt (the pointer advances to 4, two attempts
consumed).  Consequently the accepted set is `[0, max_multiple)`, whose
cardinality `max_multiple 3` is not a multiple of 3, so the final reduction
is not bias-free — contradicting the claim (and the code's own comment
"This ensures uniform distribution"). -/
theorem sample_poly_uniform_rejects_equal_draw :
    max_multiple 3 = U64 - 2 ∧
    (((2 ^ 32 - 1 : Nat) <<< 32) ||| (2 ^ 32 - 2)) = max_multiple 3 ∧
    draw_uniform_64 (fun n => if n = 0 then 2 ^ 32 - 1 else if n = 1 then 2 ^ 32 - 2 else 0)
      3 0 2 = some (0, 4) ∧
    max_multiple 3 % 3 ≠ 0 :=
  ⟨by decide, by decide, by decide, by decide⟩

/-! ### Claim C5: unsupported standard deviation in the CBD sampler -/

/-- C5 counterexample: with the maximum-deviation clip bound configured to
zero, `sample_poly_cbd` does not fail even though the configured standard
deviation (here `1`) differs from 3.2 — it takes the zero-fill shortcut and
succeeds, refuting "always fails ... regardless of any other configuration,
including the value of the maximum-deviation clip bound". -/
theorem sample_poly_cbd_zero_dev_no_error :
    sample_poly_cbd (fun _ => 0) [5] 1 ⟨1, 0⟩ = .ok [[0]] ∧ (1 : ℚ) ≠ sdev_supported :=
  ⟨rfl, by decide⟩

/-- C5 (amended): whenever the maximum-deviation clip bound is not
numerically close to zero, invoking `sample_poly_cbd` with a configured
standard deviation other than 3.2 fails with the `UnsupportedParameter`
kind, for any modulus set and degree. -/
theorem sample_poly_cbd_unsupported_sdev (bytes : Nat → Nat) (moduli : List Nat)
    (coeff_count : Nat) (cfg : NoiseConfig)
    (h0 : are_close_to_zero cfg.noise_max_deviation = false)
    (h32 : cfg.noise_standard_deviation ≠ sdev_supported) :
    sample_poly_cbd bytes moduli coeff_count cfg = .error .unsupportedParameter := by
  unfold sample_poly_cbd
  rw [h0]
  simp only [Bool.false_eq_true, if_false]
  rw [if_pos h32]

/-- Witness for `sample_poly_cbd_unsupported_sdev`: standard deviation 1,
clip bound 19.2. -/
theorem sample_poly_cbd_unsupported_sdev_witness :
    sample_poly_cbd (fun _ => 0) [5] 1 ⟨1, mkRat 96 5⟩ = .error .unsupportedParameter :=
  sample_poly_cbd_unsupported_sdev (fun _ => 0) [5] 1 ⟨1, mkRat 96 5⟩ (by decide) (by decide)

/-! ### Claim C6: the CBD coefficient formula and its range -/

/-- C6 counterexample: the coefficient drawn from the bytes
`(0xFF, 0xFF, 0xFF, 0, 0, 0)` equals `8 + 8 + 5 = 21`, which lies outside
the claimed range `[-15, 15]`. -/
theorem cbd_sample_exceeds_15 :
    cbd_sample (fun j => if j < 3 then 255 else 0) 0 = 21 ∧
    ¬ (cbd_sample (fun j => if j < 3 then 255 else 0) 0 ≤ 15) :=
  ⟨by decide, by decide⟩

/-- C6 (amended): each coefficient of `sample_poly_cbd` draws exactly 6
random bytes (the value at position `k` depends only on stream bytes
`6k .. 6k+5`), masks the 3rd and 6th bytes to their low 5 bits, and equals
`popcount(b0) + popcount(b1) + popcount(b2) - popcount(b3) - popcount(b4)
- popcount(b5)` on the masked bytes; the value always lies in `[-21, 21]`
(the two masked bytes contribute at most 5 each and the four unmasked bytes
at most 8 each). -/
theorem sample_poly_cbd_coefficient_spec (bytes : Nat → Nat) (k : Nat) :
    (cbd_sample bytes k =
      (popcount_byte (bytes (6 * k) % 256) + popcount_byte (bytes (6 * k + 1) % 256)
          + popcount_byte ((bytes (6 * k + 2) % 256) &&& 0x1F) : Int)
        - popcount_byte (bytes (6 * k + 3) % 256) - popcount_byte (bytes (6 * k + 4) % 256)
        - popcount_byte ((bytes (6 * k + 5) % 256) &&& 0x1F)) ∧
    (-21 ≤ cbd_sample bytes k ∧ cbd_sample bytes k ≤ 21) ∧
    (∀ bytes2 : Nat → Nat, (∀ j, 6 * k ≤ j → j < 6 * k + 6 → bytes2 j = bytes j) →
      cbd_sample bytes2 k = cbd_sample bytes k) := by
  have hmod : ∀ n : Nat, bytes n % 256 < 256 := fun n => Nat.mod_lt _ (by norm_num)
  have hmask : ∀ n : Nat, (bytes n % 256) &&& 0x1F < 256 :=
    fun n => Nat.lt_succ_of_le (le_trans Nat.and_le_right (by norm_num))
  refine ⟨?_, ?_, ?_⟩
  · simp only [cbd_sample]
    rw [hamming_weight_eq_popcount _ (hmod _), hamming_weight_eq_popcount _ (hmod _),
      hamming_weight_eq_popcount _ (hmask _), hamming_weight_eq_popcount _ (hmod _),
      hamming_weight_eq_popcount _ (hmod _), hamming_weight_eq_popcount _ (hmask _)]
  · have h0 := hamming_weight_le_8 _ (hmod (6 * k))
    have h1 := hamming_weight_le_8 _ (hmod (6 * k + 1))
    have h2 := hamming_weight_masked_le_5 (bytes (6 * k + 2) % 256)
    have h3 := hamming_weight_le_8 _ (hmod (6 * k + 3))
    have h4 := hamming_weight_le_8 _ (hmod (6 * k + 4))
    have h5 := hamming_weight_masked_le_5 (bytes (6 * k + 5) % 256)
    simp only [cbd_sample]
    omega
  · intro bytes2 hagree
    simp only [cbd_sample]
    rw [hagree (6 * k) (by omega) (by omega), hagree (6 * k + 1) (by omega) (by omega),
      hagree (6 * k + 2) (by omega) (by omega), hagree (6 * k + 3) (by omega) (by omega),
      hagree (6 * k + 4) (by omega) (by omega), hagree (6 * k + 5) (by omega) (by omega)]

/-! ### Claim C7: the seed-compression capacity guard -/

/-- C7: when `coeff_count * coeff_modulus_size` is strictly less than the
seed length in 64-bit words plus one, requesting compression never raises
an error: the run is identical to the run with compression disabled (the
request is silently downgraded), and a successful result is a two-component
ciphertext. -/
theorem encrypt_zero_symmetric_capacity_guard (secret_key : List (List Nat))
    (parms : EncryptionParameters) (ntt_tables : NttModel) (cfg : NoiseConfig)
    (is_ntt_form : Bool) (bootstrap : Nat → Nat) (blake : List Nat → Nat → Nat)
    (fuel : Nat) (destination : Ciphertext)
    (hsmall : parms.poly_modulus_degree * parms.coeff_modulus.length <
      prng_seed_uint64_count + 1) :
    encrypt_zero_symmetric secret_key parms ntt_tables cfg is_ntt_form true bootstrap blake
        fuel destination =
      encrypt_zero_symmetric secret_key parms ntt_tables cfg is_ntt_form false bootstrap
        blake fuel destination ∧
    (∀ d, encrypt_zero_symmetric secret_key parms ntt_tables cfg is_ntt_form true bootstrap
        blake fuel destination = some (.ok d) → d.data.length = 2) := by
  have h1 : (if (True ∧ parms.poly_modulus_degree * parms.coeff_modulus.length <
      prng_seed_uint64_count + 1) then false else true) = false :=
    if_pos ⟨trivial, hsmall⟩
  have h2 : (if (false = true ∧ parms.poly_modulus_degree * parms.coeff_modulus.length <
      prng_seed_uint64_count + 1) then false else false) = false := by
    simp
  constructor
  · simp only [encrypt_zero_symmetric]
    rw [h1, h2]
  · intro d h
    simp only [encrypt_zero_symmetric] at h
    rw [h1] at h
    split at h
    · exact absurd h (by simp)
    · split at h
      · exact absurd h (by simp)
      · simp only [Option.some.injEq, EncOutcome.ok.injEq] at h
        subst h
        rfl

/-- Witness for `encrypt_zero_symmetric_capacity_guard`: degree 2, one
modulus (`2 * 1 = 2 < 9`). -/
theorem encrypt_zero_symmetric_capacity_guard_witness :
    encrypt_zero_symmetric [[3, 4]] ⟨[17], 2⟩ ⟨fun _ l => l, fun _ l => l⟩
        ⟨sdev_supported, 0⟩ true true (fun _ => 0) (fun _ _ => 0) 1 ⟨[], false, 1⟩ =
      encrypt_zero_symmetric [[3, 4]] ⟨[17], 2⟩ ⟨fun _ l => l, fun _ l => l⟩
        ⟨sdev_supported, 0⟩ true false (fun _ => 0) (fun _ _ => 0) 1 ⟨[], false, 1⟩ ∧
    (∀ d, encrypt_zero_symmetric [[3, 4]] ⟨[17], 2⟩ ⟨fun _ l => l, fun _ l => l⟩
        ⟨sdev_supported, 0⟩ true true (fun _ => 0) (fun _ _ => 0) 1 ⟨[], false, 1⟩ =
        some (.ok d) → d.data.length = 2) :=
  encrypt_zero_symmetric_capacity_guard [[3, 4]] ⟨[17], 2⟩ ⟨fun _ l => l, fun _ l => l⟩
    ⟨sdev_supported, 0⟩ true (fun _ => 0) (fun _ _ => 0) 1 ⟨[], false, 1⟩ (by decide)

/-! ### Claim C10: the second component does not depend on the secret key -/

/-- C10: two runs of `encrypt_zero_symmetric` that differ only in the secret
key produce identical stored second components (`c1`, including the seed
marker and seed bytes when compression is enabled) and identical outcome
shapes: the secret key is only ever read to compute `c0`. -/
theorem encrypt_zero_symmetric_c1_independent_of_secret_key (sk1 sk2 : List (List Nat))
    (parms : EncryptionParameters) (ntt_tables : NttModel) (cfg : NoiseConfig)
    (is_ntt_form save_seed : Bool) (bootstrap : Nat → Nat) (blake : List Nat → Nat → Nat)
    (fuel : Nat) (destination : Ciphertext) :
    (encrypt_zero_symmetric sk1 parms ntt_tables cfg is_ntt_form save_seed bootstrap blake
        fuel destination).map (fun o => o.dest.data.getD 1 []) =
      (encrypt_zero_symmetric sk2 parms ntt_tables cfg is_ntt_form save_seed bootstrap blake
        fuel destination).map (fun o => o.dest.data.getD 1 []) := by
  simp only [encrypt_zero_symmetric]
  cases h1 : sample_poly_uniform (blake (public_rng_seed bootstrap)) parms.coeff_modulus
      parms.poly_modulus_degree 0 fuel with
  | none => rfl
  | some ap =>
    obtain ⟨a, p⟩ := ap
    cases h2 : sample_poly_cbd (fun n => bootstrap (8 * prng_seed_uint64_count + n))
        parms.coeff_modulus parms.poly_modulus_degree cfg with
    | error e => rfl
    | ok noise => rfl

/-! ### Claim C9: the non-NTT, uncompressed second component -/

/-- C9 counterexample: in the non-NTT, no-compression path the stored `c1`
is the inverse NTT of the sampled polynomial, not the sampled polynomial
itself (rlwe.cpp lines 309-316 apply `inverse_ntt_negacyclic_harvey` to
`c1`).  With an external transform pair modelled as list reversal (a
bijection, so a legitimate instance of the abstract NTT contract), the run
below samples `[0, 1]` but stores `[1, 0]`. -/
theorem encrypt_zero_symmetric_applies_intt_to_c1 :
    encrypt_zero_symmetric [[2, 3]] ⟨[17], 2⟩ ⟨fun _ l => l.reverse, fun _ l => l.reverse⟩
        ⟨sdev_supported, 0⟩ false false (fun _ => 0) (fun _ n => if n = 3 then 1 else 0) 1
        ⟨[], false, 1⟩ = some (.ok ⟨[[14, 0], [1, 0]], false, 1⟩) ∧
    sample_poly_uniform ((fun _ n => if n = 3 then 1 else 0 : List Nat → Nat → Nat)
        (public_rng_seed fun _ => 0)) [17] 2 0 1 = some ([[0, 1]], 4) ∧
    ([1, 0] : List Nat) ≠ flatten_poly [[0, 1]] :=
  ⟨by decide, by decide, by decide⟩

/-- C9 (amended): when the output must be in non-NTT form and compression is
not requested, the stored `c1` equals the per-limb inverse NTT of the
polynomial produced by the uniform sampler for the seeded stream (the
sample is treated as the NTT form and transformed back for storage). -/
theorem encrypt_zero_symmetric_non_ntt_c1 (secret_key : List (List Nat))
    (parms : EncryptionParameters) (ntt_tables : NttModel) (cfg : NoiseConfig)
    (bootstrap : Nat → Nat) (blake : List Nat → Nat → Nat) (fuel : Nat)
    (destination : Ciphertext) (a : List (List Nat)) (p : Nat) (d : Ciphertext)
    (ha : sample_poly_uniform (blake (public_rng_seed bootstrap)) parms.coeff_modulus
      parms.poly_modulus_degree 0 fuel = some (a, p))
    (hres : encrypt_zero_symmetric secret_key parms ntt_tables cfg false false bootstrap
      blake fuel destination = some (.ok d)) :
    d.data.getD 1 [] =
      flatten_poly ((List.range parms.coeff_modulus.length).map fun i =>
        ntt_tables.inv i (a.getD i [])) := by
  simp only [encrypt_zero_symmetric] at hres
  split at hres
  · exact absurd hres (by simp)
  · rename_i a2 p2 heq
    rw [ha] at heq
    simp only [Option.some.injEq, Prod.mk.injEq] at heq
    obtain ⟨ha2, hp2⟩ := heq
    subst ha2
    split at hres
    · exact absurd hres (by simp)
    · rename_i noise hn
      simp only [Option.some.injEq, EncOutcome.ok.injEq] at hres
      subst hres
      simp

/-- Witness for `encrypt_zero_symmetric_non_ntt_c1` with the identity
transform pair: the sampled `[[0, 1]]` is stored unchanged. -/
theorem encrypt_zero_symmetric_non_ntt_c1_witness :
    (⟨[[0, 14], [0, 1]], false, 1⟩ : Ciphertext).data.getD 1 [] =
      flatten_poly ((List.range ((⟨[17], 2⟩ : EncryptionParameters).coeff_modulus.length)).map
        fun i => (⟨fun _ l => l, fun _ l => l⟩ : NttModel).inv i ([[0, 1]].getD i [])) :=
  encrypt_zero_symmetric_non_ntt_c1 [[2, 3]] ⟨[17], 2⟩ ⟨fun _ l => l, fun _ l => l⟩
    ⟨sdev_supported, 0⟩ (fun _ => 0) (fun _ n => if n = 3 then 1 else 0) 1 ⟨[], false, 1⟩
    [[0, 1]] 4 ⟨[[0, 14], [0, 1]], false, 1⟩ (by decide) (by decide)

/-! ### Claim C8: destination state after a hard error -/

/-- C8 counterexample: a hard `UnsupportedParameter` failure (standard
deviation 1 with clip bound 19.2) leaves the destination neither unchanged
nor cleared: it has been resized to two components, its metadata set, and
`c1` populated with the freshly sampled uniform polynomial `[2]`. -/
theorem encrypt_zero_symmetric_error_leaves_partial_state :
    encrypt_zero_symmetric [[3]] ⟨[5], 1⟩ ⟨fun _ l => l, fun _ l => l⟩ ⟨1, mkRat 96 5⟩
        true false (fun _ => 0) (fun _ _ => 1) 1 ⟨[], false, 0⟩
      = some (.err .unsupportedParameter ⟨[[0], [2]], true, 1⟩) ∧
    (⟨[[0], [2]], true, 1⟩ : Ciphertext) ≠ ⟨[], false, 0⟩ ∧
    (⟨[[0], [2]], true, 1⟩ : Ciphertext).data ≠ [] ∧
    ¬ (∀ c ∈ (⟨[[0], [2]], true, 1⟩ : Ciphertext).data, ∀ w ∈ c, w = 0) :=
  ⟨by decide, by decide, by decide, by decide⟩

/-- C8 (amended): every hard error of `encrypt_zero_symmetric` or
`encrypt_zero_asymmetric` is the `UnsupportedParameter` failure of the
noise sampler, and it propagates only after the destination has been
resized (content-preservingly), its NTT-form flag and scale set, and the
public components populated: the symmetric generator has already
overwritten `c1` with the sampled uniform polynomial while `c0` still
holds whatever first component the resize left behind (prior contents
truncated or zero-padded); the asymmetric generator has already
overwritten every component with its `u·public_key[j]` product.  The
destination is left resized and partially populated — in general neither
unchanged nor cleared. -/
theorem encrypt_zero_error_state (secret_key : List (List Nat))
    (public_key : List (List (List Nat))) (parms : EncryptionParameters)
    (ntt_tables : NttModel) (cfg : NoiseConfig) (is_ntt_form save_seed is_ntt_form2 : Bool)
    (bootstrap : Nat → Nat) (blake : List Nat → Nat → Nat) (fuel : Nat)
    (destination destination2 : Ciphertext) (e e2 : SealError) (d d2 : Ciphertext)
    (a : List (List Nat)) (p : Nat) (draws noise_bytes : Nat → Nat)
    (ha : sample_poly_uniform (blake (public_rng_seed bootstrap)) parms.coeff_modulus
      parms.poly_modulus_degree 0 fuel = some (a, p))
    (hres : encrypt_zero_symmetric secret_key parms ntt_tables cfg is_ntt_form save_seed
      bootstrap blake fuel destination = some (.err e d))
    (hres2 : encrypt_zero_asymmetric public_key parms ntt_tables cfg is_ntt_form2 draws
      noise_bytes destination2 = .err e2 d2) :
    (e = .unsupportedParameter ∧
     sample_poly_cbd (fun n => bootstrap (8 * prng_seed_uint64_count + n))
       parms.coeff_modulus parms.poly_modulus_degree cfg = .error .unsupportedParameter ∧
     d.is_ntt_form = is_ntt_form ∧ d.scale = 1 ∧ d.data.length = 2 ∧
     d.data.getD 0 [] =
       (resize_ciphertext destination
         (parms.poly_modulus_degree * parms.coeff_modulus.length) 2).getD 0 [] ∧
     d.data.getD 1 [] =
       flatten_poly (if (!is_ntt_form &&
           (if save_seed = true ∧ parms.poly_modulus_degree * parms.coeff_modulus.length <
             prng_seed_uint64_count + 1 then false else save_seed)) = true then
         (List.range parms.coeff_modulus.length).map fun i => ntt_tables.fwd i (a.getD i [])
       else a)) ∧
    (e2 = .unsupportedParameter ∧
     d2.is_ntt_form = is_ntt_form2 ∧ d2.scale = 1 ∧ d2.data.length = public_key.length ∧
     d2.data = ((List.range public_key.length).map fun j =>
       (List.range parms.coeff_modulus.length).map fun i =>
         let q := parms.coeff_modulus.getD i 0
         let prod := dyadic_product_coeffmod (ntt_tables.fwd i
           ((sample_poly_ternary draws parms.coeff_modulus
             parms.poly_modulus_degree).getD i []))
           ((public_key.getD j []).getD i []) q
         if is_ntt_form2 then prod else ntt_tables.inv i prod).map flatten_poly) := by
  constructor
  · simp only [encrypt_zero_symmetric] at hres
    split at hres
    · exact absurd hres (by simp)
    · rename_i a2 p2 heq
      rw [ha] at heq
      simp only [Option.some.injEq, Prod.mk.injEq] at heq
      obtain ⟨ha2, _⟩ := heq
      subst ha2
      split at hres
      · rename_i e3 hn
        simp only [Option.some.injEq, EncOutcome.err.injEq] at hres
        obtain ⟨he, hd⟩ := hres
        subst hd
        cases e
        cases e3
        exact ⟨rfl, hn, rfl, rfl, rfl, rfl, rfl⟩
      · exact absurd hres (by simp)
  · simp only [encrypt_zero_asymmetric] at hres2
    split at hres2
    · rename_i e3 hn
      simp only [EncOutcome.err.injEq] at hres2
      obtain ⟨he, hd⟩ := hres2
      subst hd
      cases e2
      exact ⟨rfl, rfl, rfl, by simp, rfl⟩
    · exact absurd hres2 (by simp)

/-- Witness for `encrypt_zero_error_state` at concrete failing runs of both
generators (standard deviation 1, clip bound 19.2). -/
theorem encrypt_zero_error_state_witness :
    let parms : EncryptionParameters := ⟨[5], 1⟩
    let nt : NttModel := ⟨fun _ l => l, fun _ l => l⟩
    let d : Ciphertext := ⟨[[0], [2]], true, 1⟩
    let d2 : Ciphertext := ⟨[[4], [4]], true, 1⟩
    let pk : List (List (List Nat)) := [[[1]], [[1]]]
    ((SealError.unsupportedParameter = .unsupportedParameter) ∧
     sample_poly_cbd (fun n => (fun _ => 0 : Nat → Nat) (8 * prng_seed_uint64_count + n))
       parms.coeff_modulus parms.poly_modulus_degree ⟨1, mkRat 96 5⟩
       = .error .unsupportedParameter ∧
     d.is_ntt_form = true ∧ d.scale = 1 ∧ d.data.length = 2 ∧
     d.data.getD 0 [] =
       (resize_ciphertext ⟨[], false, 0⟩
         (parms.poly_modulus_degree * parms.coeff_modulus.length) 2).getD 0 [] ∧
     d.data.getD 1 [] =
       flatten_poly (if (!true &&
           (if false = true ∧ parms.poly_modulus_degree * parms.coeff_modulus.length <
             prng_seed_uint64_count + 1 then false else false)) = true then
         (List.range parms.coeff_modulus.length).map fun i => nt.fwd i ([[2]].getD i [])
       else [[2]])) ∧
    ((SealError.unsupportedParameter = .unsupportedParameter) ∧
     d2.is_ntt_form = true ∧ d2.scale = 1 ∧ d2.data.length = pk.length ∧
     d2.data = ((List.range pk.length).map fun j =>
       (List.range parms.coeff_modulus.length).map fun i =>
         let q := parms.coeff_modulus.getD i 0
         let prod := dyadic_product_coeffmod (nt.fwd i
           ((sample_poly_ternary (fun _ => 0) parms.coeff_modulus
             parms.poly_modulus_degree).getD i []))
           ((pk.getD j []).getD i []) q
         if true then prod else nt.inv i prod).map flatten_poly) :=
  encrypt_zero_error_state [[3]] [[[1]], [[1]]] ⟨[5], 1⟩ ⟨fun _ l => l, fun _ l => l⟩
    ⟨1, mkRat 96 5⟩ true false true (fun _ => 0) (fun _ _ => 1) 1 ⟨[], false, 0⟩
    ⟨[], false, 0⟩ .unsupportedParameter .unsupportedParameter ⟨[[0], [2]], true, 1⟩
    ⟨[[4], [4]], true, 1⟩ [[2]] 2 (fun _ => 0) (fun _ => 0) (by decide) (by decide)
    (by decide)

/-! ### Claim C2: wire format of the stored second component -/

theorem flatten_values_lt (a : List (List Nat)) (moduli : List Nat) (count : Nat)
    (halen : a.length = moduli.length) (halimb : ∀ l ∈ a, l.length = count)
    (halt : ∀ i, ∀ v ∈ a.getD i [], v < moduli.getD i 0) :
    ∀ i k, i < moduli.length → k < count →
      (flatten_poly a).getD (i * count + k) 0 < moduli.getD i 0 := by
  intro i k hi hk
  have hia : i < a.length := by omega
  rw [flatten_poly_getD a count halimb i k hia hk]
  have hmem : a.getD i [] ∈ a := by
    rw [List.getD_eq_getElem _ _ hia]
    exact List.getElem_mem _
  have hlen2 : (a.getD i []).length = count := halimb _ hmem
  have hvmem : (a.getD i []).getD k 0 ∈ a.getD i [] := by
    have hk2 : k < (a.getD i []).length := by omega
    rw [List.getD_eq_getElem (a.getD i []) 0 hk2]
    exact List.getElem_mem _
  exact halt i _ hvmem

theorem drop_one_cons_append {α : Type} (x : α) (s r : List α) :
    ((x :: s) ++ r).drop 1 = s ++ r := rfl

theorem buf_head_ne_sentinel (buf : List Nat) (moduli : List Nat) (count : Nat)
    (hq : ∀ q ∈ moduli, 0 < q ∧ q < U64) (hsize : 0 < moduli.length) (hcount : 0 < count)
    (hvals : ∀ i k, i < moduli.length → k < count →
      buf.getD (i * count + k) 0 < moduli.getD i 0) :
    buf.getD 0 0 ≠ U64MAX := by
  have h0 := hvals 0 0 hsize hcount
  have hq0 : moduli.getD 0 0 ∈ moduli := by
    rw [List.getD_eq_getElem _ _ hsize]
    exact List.getElem_mem _
  obtain ⟨_, hqU⟩ := hq _ hq0
  have hidx : 0 * count + 0 = 0 := by omega
  rw [hidx] at h0
  have hU : U64 = 2 ^ 64 := rfl
  have hM : U64MAX = 2 ^ 64 - 1 := rfl
  omega

/-- C2: the first stored 64-bit word of the second component equals the
all-ones sentinel if and only if the component was stored seed-compressed
(the effective flag after the capacity guard): when compressed, the words
at offsets `1 .. prng_seed_uint64_count` hold exactly the seed words; when
uncompressed, every stored word is a residue strictly below its limb's
modulus, so it can never equal the sentinel. -/
theorem encrypt_zero_symmetric_c1_wire_format (secret_key : List (List Nat))
    (parms : EncryptionParameters) (ntt_tables : NttModel) (cfg : NoiseConfig)
    (is_ntt_form save_seed : Bool) (bootstrap : Nat → Nat) (blake : List Nat → Nat → Nat)
    (fuel : Nat) (destination : Ciphertext) (d : Ciphertext) (a : List (List Nat)) (p : Nat)
    (hq : ∀ q ∈ parms.coeff_modulus, 0 < q ∧ q < U64)
    (hcount : 0 < parms.poly_modulus_degree) (hsize : 0 < parms.coeff_modulus.length)
    (Hlen : ∀ i x, (ntt_tables.inv i x).length = x.length)
    (Hrange : ∀ i x, (∀ v ∈ x, v < parms.coeff_modulus.getD i 0) →
      ∀ v ∈ ntt_tables.inv i x, v < parms.coeff_modulus.getD i 0)
    (ha : sample_poly_uniform (blake (public_rng_seed bootstrap)) parms.coeff_modulus
      parms.poly_modulus_degree 0 fuel = some (a, p))
    (hres : encrypt_zero_symmetric secret_key parms ntt_tables cfg is_ntt_form save_seed
      bootstrap blake fuel destination = some (.ok d)) :
    ((if save_seed = true ∧ parms.poly_modulus_degree * parms.coeff_modulus.length <
        prng_seed_uint64_count + 1 then false else save_seed) = true →
      (d.data.getD 1 []).getD 0 0 = U64MAX ∧
      ((d.data.getD 1 []).drop 1).take prng_seed_uint64_count = public_rng_seed bootstrap) ∧
    ((if save_seed = true ∧ parms.poly_modulus_degree * parms.coeff_modulus.length <
        prng_seed_uint64_count + 1 then false else save_seed) = false →
      (∀ i k, i < parms.coeff_modulus.length → k < parms.poly_modulus_degree →
        (d.data.getD 1 []).getD (i * parms.poly_modulus_degree + k) 0 <
          parms.coeff_modulus.getD i 0) ∧
      (d.data.getD 1 []).getD 0 0 ≠ U64MAX) := by
  obtain ⟨halen, halimb⟩ := sample_poly_uniform_shape _ _ _ _ _ _ _ ha
  have halt := sample_poly_uniform_lt (blake (public_rng_seed bootstrap))
    parms.coeff_modulus (fun q hq2 => (hq q hq2).1) _ _ _ _ _ ha
  simp only [encrypt_zero_symmetric] at hres
  split at hres
  · exact absurd hres (by simp)
  · rename_i a2 p2 heq
    rw [ha] at heq
    simp only [Option.some.injEq, Prod.mk.injEq] at heq
    obtain ⟨ha2, _⟩ := heq
    subst ha2
    split at hres
    · exact absurd hres (by simp)
    · rename_i noise hn
      simp only [Option.some.injEq, EncOutcome.ok.injEq] at hres
      subst hres
      constructor
      · intro hss
        rw [hss]
        simp only [Bool.and_false, Bool.not_true, Bool.false_eq_true, if_false,
          List.getD_cons_succ, List.getD_cons_zero, if_pos rfl]
        refine ⟨rfl, ?_⟩
        have hslen : (public_rng_seed bootstrap).length = prng_seed_uint64_count := by
          simp [public_rng_seed]
        rw [if_pos trivial, drop_one_cons_append, ← hslen, List.take_left]
      · intro hss
        rw [hss]
        simp only [Bool.and_false, Bool.not_false, Bool.and_true, Bool.false_eq_true,
          if_false, List.getD_cons_succ, List.getD_cons_zero]
        cases is_ntt_form with
        | true =>
          simp only [Bool.not_true, Bool.false_and, Bool.false_eq_true, if_false]
          have hvals := flatten_values_lt a parms.coeff_modulus parms.poly_modulus_degree
            halen halimb halt
          exact ⟨hvals, buf_head_ne_sentinel _ _ _ hq hsize hcount hvals⟩
        | false =>
          simp only [Bool.not_false, Bool.true_and, if_true]
          have halen2 : ((List.range parms.coeff_modulus.length).map fun i =>
              ntt_tables.inv i (a.getD i [])).length = parms.coeff_modulus.length := by
            simp
          have halimb2 : ∀ l ∈ (List.range parms.coeff_modulus.length).map fun i =>
              ntt_tables.inv i (a.getD i []), l.length = parms.poly_modulus_degree := by
            intro l hl
            obtain ⟨i, hir, rfl⟩ := List.mem_map.mp hl
            have hia : i < a.length := by
              rw [halen]
              exact List.mem_range.mp hir
            have hmem : a.getD i [] ∈ a := by
              rw [List.getD_eq_getElem _ _ hia]
              exact List.getElem_mem _
            rw [Hlen]
            exact halimb _ hmem
          have halt2 : ∀ i, ∀ v ∈ ((List.range parms.coeff_modulus.length).map fun i =>
              ntt_tables.inv i (a.getD i [])).getD i [], v < parms.coeff_modulus.getD i 0 := by
            intro i v hv
            by_cases hi : i < parms.coeff_modulus.length
            · rw [getD_range_map _ _ _ _ hi] at hv
              exact Hrange i (a.getD i []) (halt i) v hv
            · rw [List.getD_eq_default _ _ (by simpa using Nat.le_of_not_lt hi)] at hv
              simp at hv
          have hvals := flatten_values_lt _ parms.coeff_modulus parms.poly_modulus_degree
            halen2 halimb2 halt2
          exact ⟨hvals, buf_head_ne_sentinel _ _ _ hq hsize hcount hvals⟩
/-- Witness for `encrypt_zero_symmetric_c1_wire_format`: degree 16, one
modulus 41, compression requested and eligible (`16 ≥ 9`), zero streams. -/
theorem encrypt_zero_symmetric_c1_wire_format_witness :
    let parms : EncryptionParameters := ⟨[41], 16⟩
    let d : Ciphertext := ⟨[List.replicate 16 0,
      [U64MAX, 0, 0, 0, 0, 0, 0, 0, 0, 0, 0, 0, 0, 0, 0, 0]], true, 1⟩
    ((if true = true ∧ parms.poly_modulus_degree * parms.coeff_modulus.length <
        prng_seed_uint64_count + 1 then false else true) = true →
      (d.data.getD 1 []).getD 0 0 = U64MAX ∧
      ((d.data.getD 1 []).drop 1).take prng_seed_uint64_count =
        public_rng_seed fun _ => 0) ∧
    ((if true = true ∧ parms.poly_modulus_degree * parms.coeff_modulus.length <
        prng_seed_uint64_count + 1 then false else true) = false →
      (∀ i k, i < parms.coeff_modulus.length → k < parms.poly_modulus_degree →
        (d.data.getD 1 []).getD (i * parms.poly_modulus_degree + k) 0 <
          parms.coeff_modulus.getD i 0) ∧
      (d.data.getD 1 []).getD 0 0 ≠ U64MAX) :=
  encrypt_zero_symmetric_c1_wire_format [List.replicate 16 1] ⟨[41], 16⟩
    ⟨fun _ l => l, fun _ l => l⟩ ⟨sdev_supported, 0⟩ true true (fun _ => 0) (fun _ _ => 0) 1
    ⟨[], false, 1⟩
    ⟨[List.replicate 16 0, [U64MAX, 0, 0, 0, 0, 0, 0, 0, 0, 0, 0, 0, 0, 0, 0, 0]], true, 1⟩
    [List.replicate 16 0] 32 (by decide) (by decide) (by decide) (fun _ _ => rfl)
    (fun _ _ h => h) (by decide) (by decide)

/-! ### Claim C1: the symmetric zero-encryption relation -/

/-- C1: for every secret key, parameter set, NTT-form flag and seed flag,
`encrypt_zero_symmetric` produces a two-component ciphertext whose first
component satisfies, per modulus limb `i`, `c0 = -(c1·s + e) mod q_i`, with
`c1` the uniformly sampled polynomial: in the NTT domain (where the code's
pointwise `dyadic_product_coeffmod` implements the product `c1·s`), the
stored `c0` limb — mapped back into the NTT domain by the forward transform
when the output is in coefficient form — equals the negation mod `q_i` of
(the NTT-domain representative of the sampled `c1`, pointwise-multiplied by
the secret key, plus the sampled noise `e` in the same domain).  The
uniform sample `a` and the noise `noise` are exposed through the sampler
equations `ha` and `hnoise`; of the external NTT only mutual inversion and
commutation with the pointwise mod-`q` addition and negation kernels are
assumed. -/
theorem encrypt_zero_symmetric_c0_spec (secret_key : List (List Nat))
    (parms : EncryptionParameters) (ntt_tables : NttModel) (cfg : NoiseConfig)
    (is_ntt_form save_seed : Bool) (bootstrap : Nat → Nat) (blake : List Nat → Nat → Nat)
    (fuel : Nat) (destination : Ciphertext) (d : Ciphertext) (a noise : List (List Nat))
    (p : Nat)
    (Hfi : ∀ i x, ntt_tables.fwd i (ntt_tables.inv i x) = x)
    (Hif : ∀ i x, ntt_tables.inv i (ntt_tables.fwd i x) = x)
    (Hadd : ∀ i x y, ntt_tables.fwd i (add_poly_coeffmod x y (parms.coeff_modulus.getD i 0)) =
      add_poly_coeffmod (ntt_tables.fwd i x) (ntt_tables.fwd i y)
        (parms.coeff_modulus.getD i 0))
    (Hneg : ∀ i x, ntt_tables.fwd i (negate_poly_coeffmod x (parms.coeff_modulus.getD i 0)) =
      negate_poly_coeffmod (ntt_tables.fwd i x) (parms.coeff_modulus.getD i 0))
    (ha : sample_poly_uniform (blake (public_rng_seed bootstrap)) parms.coeff_modulus
      parms.poly_modulus_degree 0 fuel = some (a, p))
    (hnoise : sample_poly_cbd (fun n => bootstrap (8 * prng_seed_uint64_count + n))
      parms.coeff_modulus parms.poly_modulus_degree cfg = .ok noise)
    (hres : encrypt_zero_symmetric secret_key parms ntt_tables cfg is_ntt_form save_seed
      bootstrap blake fuel destination = some (.ok d)) :
    d.data.length = 2 ∧
    d.data.getD 0 [] =
      flatten_poly ((List.range parms.coeff_modulus.length).map fun i =>
        let q := parms.coeff_modulus.getD i 0
        let c1_ntt := if (!is_ntt_form && (if save_seed = true ∧
            parms.poly_modulus_degree * parms.coeff_modulus.length <
              prng_seed_uint64_count + 1 then false else save_seed)) = true then
          ntt_tables.fwd i (a.getD i []) else a.getD i []
        let c0_ntt := negate_poly_coeffmod (add_poly_coeffmod
          (ntt_tables.fwd i (noise.getD i []))
          (dyadic_product_coeffmod c1_ntt (secret_key.getD i []) q) q) q
        if is_ntt_form then c0_ntt else ntt_tables.inv i c0_ntt) := by
  have key : ∀ i x e s2,
      ntt_tables.inv i (negate_poly_coeffmod (add_poly_coeffmod (ntt_tables.fwd i e)
        (dyadic_product_coeffmod x s2 (parms.coeff_modulus.getD i 0))
        (parms.coeff_modulus.getD i 0)) (parms.coeff_modulus.getD i 0)) =
      negate_poly_coeffmod (add_poly_coeffmod e (ntt_tables.inv i
        (dyadic_product_coeffmod s2 x (parms.coeff_modulus.getD i 0)))
        (parms.coeff_modulus.getD i 0)) (parms.coeff_modulus.getD i 0) := by
    intro i x e s2
    rw [dyadic_product_coeffmod_comm s2 x]
    conv_lhs => rw [show dyadic_product_coeffmod x s2 (parms.coeff_modulus.getD i 0) =
      ntt_tables.fwd i (ntt_tables.inv i (dyadic_product_coeffmod x s2
        (parms.coeff_modulus.getD i 0))) from
      (Hfi i (dyadic_product_coeffmod x s2 (parms.coeff_modulus.getD i 0))).symm]
    rw [← Hadd i, ← Hneg i, Hif i]
  simp only [encrypt_zero_symmetric] at hres
  split at hres
  · exact absurd hres (by simp)
  · rename_i a2 p2 heq
    rw [ha] at heq
    simp only [Option.some.injEq, Prod.mk.injEq] at heq
    obtain ⟨ha2, _⟩ := heq
    subst ha2
    split at hres
    · rename_i e2 hn2
      rw [hnoise] at hn2
      exact absurd hn2 (by simp)
    · rename_i noise2 hn2
      rw [hnoise] at hn2
      simp only [Except.ok.injEq] at hn2
      subst hn2
      simp only [Option.some.injEq, EncOutcome.ok.injEq] at hres
      subst hres
      refine ⟨rfl, ?_⟩
      simp only [List.getD_cons_zero]
      cases is_ntt_form with
      | true =>
        simp only [Bool.not_true, Bool.false_and, Bool.false_eq_true, if_false, if_true,
          if_pos rfl]
        refine congrArg flatten_poly (List.map_congr_left fun i hir => ?_)
        rw [dyadic_product_coeffmod_comm (secret_key.getD i []) (a.getD i [])]
      | false =>
        cases hss : (if save_seed = true ∧ parms.poly_modulus_degree *
            parms.coeff_modulus.length < prng_seed_uint64_count + 1 then false
          else save_seed) with
        | false =>
          simp only [Bool.not_false, Bool.true_and, Bool.false_eq_true, if_false,
            Bool.and_false]
          refine congrArg flatten_poly (List.map_congr_left fun i hir => ?_)
          exact (key i (a.getD i []) (noise.getD i []) (secret_key.getD i [])).symm
        | true =>
          simp only [Bool.not_false, Bool.true_and, Bool.and_true, if_true, if_pos rfl]
          refine congrArg flatten_poly (List.map_congr_left fun i hir => ?_)
          have hi : i < parms.coeff_modulus.length := List.mem_range.mp hir
          rw [getD_range_map _ _ _ _ hi]
          exact (key i (ntt_tables.fwd i (a.getD i [])) (noise.getD i [])
            (secret_key.getD i [])).symm

/-- Witness for `encrypt_zero_symmetric_c0_spec`: degree 1, modulus 5,
identity transforms, zero streams, NTT-form output. -/
theorem encrypt_zero_symmetric_c0_spec_witness :
    let parms : EncryptionParameters := ⟨[5], 1⟩
    let nt : NttModel := ⟨fun _ l => l, fun _ l => l⟩
    let d : Ciphertext := ⟨[[0], [0]], true, 1⟩
    d.data.length = 2 ∧
    d.data.getD 0 [] =
      flatten_poly ((List.range parms.coeff_modulus.length).map fun i =>
        let q := parms.coeff_modulus.getD i 0
        let c1_ntt := if (!true && (if false = true ∧ parms.poly_modulus_degree *
            parms.coeff_modulus.length < prng_seed_uint64_count + 1 then false
          else false)) = true then nt.fwd i ([[0]].getD i []) else [[0]].getD i []
        let c0_ntt := negate_poly_coeffmod (add_poly_coeffmod
          (nt.fwd i ([[0]].getD i []))
          (dyadic_product_coeffmod c1_ntt ([[3]].getD i []) q) q) q
        if true then c0_ntt else nt.inv i c0_ntt) :=
  encrypt_zero_symmetric_c0_spec [[3]] ⟨[5], 1⟩ ⟨fun _ l => l, fun _ l => l⟩
    ⟨sdev_supported, 0⟩ true false (fun _ => 0) (fun _ _ => 0) 1 ⟨[], false, 1⟩
    ⟨[[0], [0]], true, 1⟩ [[0]] [[0]] 2 (fun _ _ => rfl) (fun _ _ => rfl)
    (fun _ _ _ => rfl) (fun _ _ => rfl) (by decide) rfl (by decide)

/-- Witness for `sample_poly_cbd_coefficient_spec` at the all-zero stream. -/
theorem sample_poly_cbd_coefficient_spec_witness :
    let bytes : Nat → Nat := fun _ => 0
    (cbd_sample bytes 0 =
      (popcount_byte (bytes (6 * 0) % 256) + popcount_byte (bytes (6 * 0 + 1) % 256)
          + popcount_byte ((bytes (6 * 0 + 2) % 256) &&& 0x1F) : Int)
        - popcount_byte (bytes (6 * 0 + 3) % 256) - popcount_byte (bytes (6 * 0 + 4) % 256)
        - popcount_byte ((bytes (6 * 0 + 5) % 256) &&& 0x1F)) ∧
    (-21 ≤ cbd_sample bytes 0 ∧ cbd_sample bytes 0 ≤ 21) ∧
    (∀ bytes2 : Nat → Nat, (∀ j, 6 * 0 ≤ j → j < 6 * 0 + 6 → bytes2 j = bytes j) →
      cbd_sample bytes2 0 = cbd_sample bytes 0) :=
  sample_poly_cbd_coefficient_spec (fun _ => 0) 0

/-- Witness for `encrypt_zero_symmetric_c1_independent_of_secret_key` with
two distinct concrete secret keys. -/
theorem encrypt_zero_symmetric_c1_independent_of_secret_key_witness :
    (encrypt_zero_symmetric [[1]] ⟨[5], 1⟩ ⟨fun _ l => l, fun _ l => l⟩ ⟨sdev_supported, 0⟩
        true false (fun _ => 0) (fun _ _ => 0) 1 ⟨[], false, 1⟩).map
      (fun o => o.dest.data.getD 1 []) =
    (encrypt_zero_symmetric [[2]] ⟨[5], 1⟩ ⟨fun _ l => l, fun _ l => l⟩ ⟨sdev_supported, 0⟩
        true false (fun _ => 0) (fun _ _ => 0) 1 ⟨[], false, 1⟩).map
      (fun o => o.dest.data.getD 1 []) :=
  encrypt_zero_symmetric_c1_independent_of_secret_key [[1]] [[2]] ⟨[5], 1⟩
    ⟨fun _ l => l, fun _ l => l⟩ ⟨sdev_supported, 0⟩ true false (fun _ => 0) (fun _ _ => 0)
    1 ⟨[], false, 1⟩

end SealRlwe
